import Mathlib

/-!
Verification of the association-rules mining engine
(`Association_Rules.py`): the support calculator, the brute-force
frequent-itemset miner, and the association-rule generator.

Items are values of an arbitrary linearly ordered type `α` (strings in the
program).  Transactions are lists of items; an itemset is a list of items.
Support and confidence values are rationals.  Python exceptions
(`ZeroDivisionError` from dividing by a zero transaction count or a zero
antecedent support) are modelled by `Option`: `none` is a raised exception.
-/

namespace AssocRules

variable {α : Type} [LinearOrder α]

/-- `set(itemset).issubset(set(transaction))`: every item of `s` occurs in
`t`; intra-list duplicates are irrelevant. -/
def subsetB (s t : List α) : Bool :=
  s.all (fun x => decide (x ∈ t))

/-- `sum(1 for transaction in transactions if set(itemset).issubset(set(transaction)))`:
the number of transactions of which `itemset` is a subset. -/
def supportCount (transactions : List (List α)) (itemset : List α) : Nat :=
  (transactions.filter (fun t => subsetB itemset t)).length

/-- `calculate_support(transactions, itemset)`: the subset count divided by
`len(transactions)`; `none` models the `ZeroDivisionError` raised when the
transaction list is empty. -/
def calculate_support (transactions : List (List α)) (itemset : List α) : Option ℚ :=
  if transactions.length = 0 then none
  else some ((supportCount transactions itemset : ℚ) / (transactions.length : ℚ))

/-- `sorted(set(item for transaction in transactions for item in transaction))`:
the sorted universe of distinct items. -/
def uniqueItems (transactions : List (List α)) : List α :=
  List.insertionSort (· ≤ ·) transactions.flatten.dedup

/-- `itertools.combinations(l, k)`: all length-`k` subsequences of `l`, each
keeping the order of `l`, enumerated in the order `itertools` uses. -/
def combinations : Nat → List α → List (List α)
  | 0, _ => [[]]
  | _ + 1, [] => []
  | k + 1, x :: xs => (combinations k xs).map (fun c => x :: c) ++ combinations (k + 1) xs

/-- One level of the miner's `while` body: walk the candidate itemsets,
compute each one's support, and keep those with `support >= min_support`.
`none` propagates a `ZeroDivisionError` from `calculate_support`. -/
def levelFrequent (transactions : List (List α)) (min_support : ℚ) :
    List (List α) → Option (List (List α × ℚ))
  | [] => some []
  | c :: cs =>
    match calculate_support transactions c with
    | none => none
    | some s =>
      match levelFrequent transactions min_support cs with
      | none => none
      | some rest => some (if min_support ≤ s then (c, s) :: rest else rest)

/-- The miner's `while True` loop, starting at level `k`, with explicit
`fuel` bounding the number of iterations.  The outer `Option` is fuel
exhaustion (`none` never arises once `fuel + k` exceeds the universe size
by two, proved below); the inner `Option` models an exception escaping the
loop. -/
def bfLoopFuel (transactions : List (List α)) (min_support : ℚ) (items : List α) :
    Nat → Nat → Option (Option (List (List α × ℚ)))
  | 0, _ => none
  | fuel + 1, k =>
    match levelFrequent transactions min_support (combinations k items) with
    | none => some none
    | some current =>
      if current.isEmpty then some (some [])
      else
        match bfLoopFuel transactions min_support items fuel (k + 1) with
        | none => none
        | some none => some none
        | some (some rest) => some (some (current ++ rest))

/-- `brute_force_frequent_itemsets(transactions, min_support)`: run the level
loop from `k = 1`.  Fuel `|items| + 1` is sufficient (the level at
`k = |items| + 1` has no candidate itemsets, so the loop breaks there at the
latest; see `bfLoopFuel_halts`). -/
def brute_force_frequent_itemsets (transactions : List (List α)) (min_support : ℚ) :
    Option (List (List α × ℚ)) :=
  let items := uniqueItems transactions
  (bfLoopFuel transactions min_support items (items.length + 1) 1).join

/-- `tuple(item for item in itemset if item not in antecedent)`. -/
def consequentOf (itemset antecedent : List α) : List α :=
  itemset.filter (fun x => !(decide (x ∈ antecedent)))

/-- The candidate antecedents tried for one itemset:
`for i in range(1, len(itemset)): for antecedent in itertools.combinations(itemset, i)`. -/
def antecedentsOf (itemset : List α) : List (List α) :=
  (List.range' 1 (itemset.length - 1)).flatMap (fun i => combinations i itemset)

/-- The inner rule loop for one frequent itemset: for each candidate
antecedent, recompute its support by a full scan, divide
(`none` models the `ZeroDivisionError` when the antecedent support is zero,
or a propagated error from `calculate_support`), and keep the rule when
`confidence >= min_confidence`. -/
def processAntecedents (transactions : List (List α)) (min_confidence : ℚ)
    (itemset : List α) (itemset_support : ℚ) :
    List (List α) → Option (List (List α × List α × ℚ × ℚ))
  | [] => some []
  | a :: rest =>
    match calculate_support transactions a with
    | none => none
    | some antecedent_support =>
      if antecedent_support = 0 then none
      else
        match processAntecedents transactions min_confidence itemset itemset_support rest with
        | none => none
        | some rs =>
          some (if min_confidence ≤ itemset_support / antecedent_support then
                  (a, consequentOf itemset a, itemset_support / antecedent_support,
                    itemset_support) :: rs
                else rs)

/-- `if len(itemset) > 1:` followed by the antecedent loops. -/
def rulesForItemset (transactions : List (List α)) (min_confidence : ℚ)
    (itemset : List α) (itemset_support : ℚ) :
    Option (List (List α × List α × ℚ × ℚ)) :=
  if 1 < itemset.length then
    processAntecedents transactions min_confidence itemset itemset_support
      (antecedentsOf itemset)
  else some []

/-- `generate_association_rules(frequent_itemsets, transactions, min_confidence)`:
concatenate, in order, the rules produced from each frequent itemset record;
`none` models an uncaught exception. -/
def generate_association_rules :
    List (List α × ℚ) → List (List α) → ℚ → Option (List (List α × List α × ℚ × ℚ))
  | [], _, _ => some []
  | (itemset, itemset_support) :: rest, transactions, min_confidence =>
    match rulesForItemset transactions min_confidence itemset itemset_support with
    | none => none
    | some rs =>
      match generate_association_rules rest transactions min_confidence with
      | none => none
      | some more => some (rs ++ more)

/-- Total support as a rational (meaningful when the transaction list is
non-empty): subset count over transaction count. -/
def support_spec (transactions : List (List α)) (itemset : List α) : ℚ :=
  (supportCount transactions itemset : ℚ) / (transactions.length : ℚ)

/-- The Rule Generator as the spec §4.3 words it, used as the comparison
point of the refinement claim: for every record whose itemset has more than
one item, every `i`-combination of the itemset (over the itemset's own
order, `i` from `1` to `size - 1`) is a candidate antecedent, the consequent
is the itemset minus the antecedent, the antecedent support is recomputed by
a full scan of the transactions, `confidence = itemset_support /
antecedent_support`, and the rule is retained exactly when
`confidence ≥ min_confidence`. -/
def generate_rules_spec (frequent_itemsets : List (List α × ℚ))
    (transactions : List (List α)) (min_confidence : ℚ) :
    List (List α × List α × ℚ × ℚ) :=
  frequent_itemsets.flatMap (fun p =>
    if 1 < p.1.length then
      (antecedentsOf p.1).filterMap (fun a =>
        if min_confidence ≤ p.2 / support_spec transactions a then
          some (a, consequentOf p.1 a, p.2 / support_spec transactions a, p.2)
        else none)
    else [])

/-- The five-transaction example dataset of §8 of the spec, with the items
encoded as ordered tokens numbered by the lexicographic order of their
names — beer ↦ 0, bread ↦ 1, diaper ↦ 2, eggs ↦ 3, milk ↦ 4 — so the
canonical sorted item universe coincides with the program's
(`sorted(set(...))` over the strings). -/
def exampleTransactions : List (List ℕ) :=
  [[1, 4], [1, 2, 0], [4, 2, 0, 3], [1, 4, 2, 0], [1, 4, 2]]

/-! ### Support calculator -/

theorem subsetB_iff (s t : List α) : subsetB s t = true ↔ ∀ x ∈ s, x ∈ t := by
  simp [subsetB]

theorem subsetB_eq_decide (s t : List α) :
    subsetB s t = decide (∀ x ∈ s, x ∈ t) := by
  by_cases h : ∀ x ∈ s, x ∈ t
  · rw [(subsetB_iff s t).mpr h, decide_eq_true h]
  · rw [decide_eq_false h]
    by_contra hb
    exact h ((subsetB_iff s t).mp (by revert hb; cases subsetB s t <;> simp))

theorem supportCount_le_length (ts : List (List α)) (c : List α) :
    supportCount ts c ≤ ts.length :=
  List.length_filter_le _ _

theorem calculate_support_of_ne_nil {ts : List (List α)} (c : List α) (h : ts ≠ []) :
    calculate_support ts c = some (support_spec ts c) := by
  have : ts.length ≠ 0 := fun h0 => h (List.length_eq_zero.mp h0)
  simp [calculate_support, support_spec, this]

theorem support_spec_nonneg (ts : List (List α)) (c : List α) :
    0 ≤ support_spec ts c :=
  div_nonneg (Nat.cast_nonneg _) (Nat.cast_nonneg _)

theorem support_spec_le_one {ts : List (List α)} (c : List α) (h : ts ≠ []) :
    support_spec ts c ≤ 1 := by
  have hpos : (0 : ℚ) < (ts.length : ℚ) :=
    Nat.cast_pos.mpr (List.length_pos.mpr h)
  exact (div_le_one hpos).mpr (Nat.cast_le.mpr (supportCount_le_length ts c))

/-- C1: for every non-empty transaction list `T` and every itemset `I`,
`calculate_support T I` returns the number of transactions of which `I` is a
subset (each transaction treated as a set, so intra-transaction duplicates
are ignored) divided by the length of `T`, and this value lies in `[0, 1]`. -/
theorem calculate_support_correct (ts : List (List α)) (I : List α) (h : ts ≠ []) :
    ∃ q : ℚ, calculate_support ts I = some q ∧
      q = ((ts.countP fun t => decide (∀ x ∈ I, x ∈ t)) : ℚ) / (ts.length : ℚ) ∧
      0 ≤ q ∧ q ≤ 1 := by
  refine ⟨support_spec ts I, calculate_support_of_ne_nil I h, ?_, support_spec_nonneg ts I,
    support_spec_le_one I h⟩
  have hcount : supportCount ts I = ts.countP fun t => decide (∀ x ∈ I, x ∈ t) := by
    rw [List.countP_eq_length_filter, supportCount]
    congr 1
    exact List.filter_congr fun t _ => by rw [subsetB_eq_decide]
  rw [support_spec, hcount]

/-- C1 witness: the theorem instantiated at a concrete one-transaction list. -/
theorem calculate_support_correct_witness :
    ([[0]] : List (List ℕ)) ≠ [] ∧
      ∃ q : ℚ, calculate_support [[0]] [(0 : ℕ)] = some q ∧ 0 ≤ q ∧ q ≤ 1 := by
  refine ⟨by decide, ?_⟩
  obtain ⟨q, h1, _, h3, h4⟩ := calculate_support_correct [[0]] [(0 : ℕ)] (by decide)
  exact ⟨q, h1, h3, h4⟩

theorem supportCount_anti {ts : List (List α)} {A B : List α}
    (hAB : ∀ x ∈ A, x ∈ B) : supportCount ts B ≤ supportCount ts A := by
  rw [supportCount, supportCount, ← List.countP_eq_length_filter,
    ← List.countP_eq_length_filter]
  refine List.countP_mono_left fun t _ hB => ?_
  exact (subsetB_iff A t).mpr fun x hx => (subsetB_iff B t).mp hB x (hAB x hx)

/-- C5: anti-monotonicity of support — for every non-empty transaction list
`T` and itemsets `A ⊆ B`, `calculate_support T A ≥ calculate_support T B`. -/
theorem support_anti_monotone (ts : List (List α)) (A B : List α) (h : ts ≠ [])
    (hAB : ∀ x ∈ A, x ∈ B) :
    ∃ qA qB : ℚ, calculate_support ts A = some qA ∧
      calculate_support ts B = some qB ∧ qB ≤ qA := by
  refine ⟨support_spec ts A, support_spec ts B, calculate_support_of_ne_nil A h,
    calculate_support_of_ne_nil B h, ?_⟩
  have hpos : (0 : ℚ) < (ts.length : ℚ) :=
    Nat.cast_pos.mpr (List.length_pos.mpr h)
  exact (div_le_div_iff_of_pos_right hpos).mpr (Nat.cast_le.mpr (supportCount_anti hAB))

/-- C5 witness: the theorem instantiated at concrete transactions and
itemsets `[0] ⊆ [0, 1]`. -/
theorem support_anti_monotone_witness :
    ∃ qA qB : ℚ, calculate_support [[0, 1], [0]] [(0 : ℕ)] = some qA ∧
      calculate_support [[0, 1], [0]] [(0 : ℕ), 1] = some qB ∧ qB ≤ qA :=
  support_anti_monotone [[0, 1], [0]] [(0 : ℕ)] [(0 : ℕ), 1] (by decide) (by decide)

/-! ### Combinations -/

theorem mem_combinations {k : Nat} {l c : List α} :
    c ∈ combinations k l ↔ c.Sublist l ∧ c.length = k := by
  induction l generalizing k c with
  | nil =>
    cases k with
    | zero =>
      simp only [combinations, List.mem_singleton, List.sublist_nil, List.length_eq_zero]
      exact ⟨fun h => ⟨h, h⟩, fun h => h.1⟩
    | succ k =>
      simp only [combinations, List.not_mem_nil, false_iff, not_and, List.sublist_nil]
      rintro rfl
      simp
  | cons x xs ih =>
    cases k with
    | zero =>
      simp only [combinations, List.mem_singleton, List.length_eq_zero]
      constructor
      · rintro rfl
        exact ⟨List.nil_sublist _, rfl⟩
      · exact fun h => h.2
    | succ k =>
      simp only [combinations, List.mem_append, List.mem_map, ih]
      constructor
      · rintro (⟨c', ⟨hs, hl⟩, rfl⟩ | ⟨hs, hl⟩)
        · exact ⟨hs.cons₂ x, by simp [hl]⟩
        · exact ⟨hs.cons x, hl⟩
      · rintro ⟨hs, hl⟩
        cases c with
        | nil => simp at hl
        | cons y ys =>
          cases hs with
          | cons _ h => exact Or.inr ⟨h, hl⟩
          | cons₂ _ h => exact Or.inl ⟨ys, ⟨h, by simpa using hl⟩, rfl⟩

theorem nodup_combinations {k : Nat} {l : List α} (hl : l.Nodup) :
    (combinations k l).Nodup := by
  induction l generalizing k with
  | nil => cases k <;> simp [combinations]
  | cons x xs ih =>
    cases k with
    | zero => simp [combinations]
    | succ k =>
      obtain ⟨hx, hxs⟩ := List.nodup_cons.mp hl
      refine List.Nodup.append ((ih hxs).map List.cons_injective) (ih hxs) ?_
      rw [List.disjoint_left]
      rintro c hc hc'
      obtain ⟨c', _, rfl⟩ := List.mem_map.mp hc
      exact hx ((mem_combinations.mp hc').1.subset (List.mem_cons_self x c'))

theorem combinations_eq_nil_iff {k : Nat} {l : List α} :
    combinations k l = [] ↔ l.length < k := by
  induction l generalizing k with
  | nil =>
    cases k with
    | zero => simp [combinations]
    | succ k => simp [combinations]
  | cons x xs ih =>
    cases k with
    | zero => simp [combinations]
    | succ k =>
      simp only [combinations, List.append_eq_nil, List.map_eq_nil_iff, ih, List.length_cons]
      omega

/-! ### The miner's level loop -/

theorem levelFrequent_nil_cands (ts : List (List α)) (ms : ℚ) :
    levelFrequent ts ms [] = some [] := rfl

theorem levelFrequent_of_ne_nil {ts : List (List α)} (ms : ℚ) (h : ts ≠ [])
    (cands : List (List α)) :
    levelFrequent ts ms cands =
      some ((cands.map fun c => (c, support_spec ts c)).filter fun p =>
        decide (ms ≤ p.2)) := by
  induction cands with
  | nil => rfl
  | cons c cs ih =>
    simp only [levelFrequent, calculate_support_of_ne_nil c h, ih, List.map_cons,
      List.filter_cons]
    by_cases hms : ms ≤ support_spec ts c <;> simp [hms]

theorem levelFrequent_cands_ne_nil {ts : List (List α)} {ms : ℚ}
    {cands : List (List α)} {cur : List (List α × ℚ)}
    (h : levelFrequent ts ms cands = some cur) (hcur : cur ≠ []) : cands ≠ [] := by
  rintro rfl
  exact hcur (Option.some_injective _ h.symm)

theorem bfLoopFuel_congr (ts : List (List α)) (ms : ℚ) (items : List α) :
    ∀ fuel fuel' k, items.length + 2 ≤ fuel + k → items.length + 2 ≤ fuel' + k →
      k ≤ items.length + 1 →
      bfLoopFuel ts ms items fuel k = bfLoopFuel ts ms items fuel' k := by
  intro fuel
  induction fuel with
  | zero => intro fuel' k h1 _ h3; omega
  | succ f ih =>
    intro fuel' k h1 h2 h3
    cases fuel' with
    | zero => omega
    | succ f' =>
      simp only [bfLoopFuel]
      rcases hlf : levelFrequent ts ms (combinations k items) with _ | cur
      · rfl
      · dsimp only
        rcases hc : cur.isEmpty with _ | _
        · have hcur : cur ≠ [] := by
            cases cur with
            | nil => simp at hc
            | cons _ _ => simp
          have hk : k ≤ items.length := by
            by_contra hlt
            exact levelFrequent_cands_ne_nil hlf hcur
              (combinations_eq_nil_iff.mpr (by omega))
          simp only [hc, Bool.false_eq_true, if_false]
          rw [ih f' (k + 1) (by omega) (by omega) (by omega)]
        · simp [hc]

theorem bfLoopFuel_ne_none (ts : List (List α)) (ms : ℚ) (items : List α) :
    ∀ fuel k, items.length + 2 ≤ fuel + k → k ≤ items.length + 1 →
      bfLoopFuel ts ms items fuel k ≠ none := by
  intro fuel
  induction fuel with
  | zero => intro k h1 h2; omega
  | succ f ih =>
    intro k h1 h2
    simp only [bfLoopFuel]
    rcases hlf : levelFrequent ts ms (combinations k items) with _ | cur
    · simp
    · dsimp only
      rcases hc : cur.isEmpty with _ | _
      · have hcur : cur ≠ [] := by
          cases cur with
          | nil => simp at hc
          | cons _ _ => simp
        have hk : k ≤ items.length := by
          by_contra hlt
          exact levelFrequent_cands_ne_nil hlf hcur
            (combinations_eq_nil_iff.mpr (by omega))
        simp only [hc, Bool.false_eq_true, if_false]
        rcases hrec : bfLoopFuel ts ms items f (k + 1) with _ | r
        · exact absurd hrec (ih (k + 1) (by omega) (by omega))
        · cases r <;> simp
      · simp [hc]

/-- C6: for every non-empty transaction list and every `min_support`, the
miner's `while` loop halts: the universe of distinct items is finite, and
once the level counter passes the universe size no candidate combinations
exist, so running the loop with any iteration budget of at least
`|universe| + 1` yields the same final (non-diverging) result —
the value `brute_force_frequent_itemsets` returns. -/
theorem brute_force_loop_halts (ts : List (List α)) (ms : ℚ) (h : ts ≠ [])
    (fuel : Nat) (hf : (uniqueItems ts).length + 1 ≤ fuel) :
    bfLoopFuel ts ms (uniqueItems ts) fuel 1 =
      some (brute_force_frequent_itemsets ts ms) := by
  have hcongr := bfLoopFuel_congr ts ms (uniqueItems ts) fuel
    ((uniqueItems ts).length + 1) 1 (by omega) (by omega) (by omega)
  have hne := bfLoopFuel_ne_none ts ms (uniqueItems ts)
    ((uniqueItems ts).length + 1) 1 (by omega) (by omega)
  simp only [brute_force_frequent_itemsets]
  rcases hbf : bfLoopFuel ts ms (uniqueItems ts) ((uniqueItems ts).length + 1) 1 with _ | r
  · exact absurd hbf hne
  · rw [hcongr, hbf]
    cases r <;> rfl

/-- C6 witness: the loop on a concrete one-transaction list halts with any
budget past the bound, here budget 5 on a one-item universe. -/
theorem brute_force_loop_halts_witness :
    bfLoopFuel [[(0 : ℕ)]] (1/2 : ℚ) (uniqueItems [[(0 : ℕ)]]) 5 1 =
      some (brute_force_frequent_itemsets [[(0 : ℕ)]] (1/2 : ℚ)) :=
  brute_force_loop_halts [[(0 : ℕ)]] (1/2 : ℚ) (by decide) 5 (by decide)

/-- C10: on an empty transaction list the miner returns the empty list
without raising, for every `min_support`: the item universe is empty, the
size-1 candidate list is empty, the loop breaks at once, and
`calculate_support` (whose division would fail) is never invoked. -/
theorem brute_force_empty_transactions (ms : ℚ) :
    brute_force_frequent_itemsets ([] : List (List α)) ms = some [] := rfl

/-- C8 counterexample: on zero transactions `calculate_support` does raise
(`none`), but `brute_force_frequent_itemsets` does not — it returns an
empty result, contradicting the claim that the miner likewise raises. -/
theorem empty_transactions_miner_cex :
    calculate_support ([] : List (List ℕ)) [0] = none ∧
      brute_force_frequent_itemsets ([] : List (List ℕ)) (1/2 : ℚ) = some [] :=
  ⟨rfl, rfl⟩

/-- C8 amended: when the transaction set is empty, `calculate_support`
fails with a division error, while `brute_force_frequent_itemsets` raises
nothing: its item universe is empty, so it returns the empty list without
ever invoking `calculate_support`. -/
theorem empty_transactions_behavior (I : List α) (ms : ℚ) :
    calculate_support ([] : List (List α)) I = none ∧
      brute_force_frequent_itemsets ([] : List (List α)) ms = some [] :=
  ⟨rfl, rfl⟩

/-! ### The brute-force miner at `min_support = 0` -/

theorem nodup_uniqueItems (ts : List (List α)) : (uniqueItems ts).Nodup :=
  (List.perm_insertionSort _ _).symm.nodup (List.nodup_dedup _)

theorem sorted_uniqueItems (ts : List (List α)) :
    List.Sorted (· ≤ ·) (uniqueItems ts) :=
  List.sorted_insertionSort _ _

theorem mem_uniqueItems {ts : List (List α)} {x : α} :
    x ∈ uniqueItems ts ↔ ∃ t ∈ ts, x ∈ t := by
  rw [uniqueItems, (List.perm_insertionSort _ _).mem_iff, List.mem_dedup,
    List.mem_flatten]

theorem bfLoopFuel_zero_support {ts : List (List α)} (h : ts ≠ []) (items : List α) :
    ∀ fuel k, items.length + 2 ≤ fuel + k → k ≤ items.length + 1 →
      bfLoopFuel ts 0 items fuel k =
        some (some ((List.range' k (items.length + 1 - k)).flatMap
          fun j => (combinations j items).map fun c => (c, support_spec ts c))) := by
  intro fuel
  induction fuel with
  | zero => intro k h1 h2; omega
  | succ f ih =>
    intro k h1 h2
    simp only [bfLoopFuel]
    have hfilter : ((combinations k items).map fun c => (c, support_spec ts c)).filter
        (fun p => decide ((0 : ℚ) ≤ p.2)) =
        (combinations k items).map fun c => (c, support_spec ts c) := by
      rw [List.filter_eq_self]
      rintro p hp
      obtain ⟨c, _, rfl⟩ := List.mem_map.mp hp
      simpa using support_spec_nonneg ts c
    rw [levelFrequent_of_ne_nil 0 h (combinations k items), hfilter]
    dsimp only
    by_cases hk : k ≤ items.length
    · have hne : combinations k items ≠ [] := fun hnil =>
        absurd (combinations_eq_nil_iff.mp hnil) (by omega)
      have hmapne : ((combinations k items).map fun c => (c, support_spec ts c)) ≠ [] := by
        simpa using hne
      rw [if_neg (by simpa [List.isEmpty_iff] using hmapne)]
      rw [ih (k + 1) (by omega) (by omega)]
      dsimp only
      have hsplit : items.length + 1 - k = (items.length - k) + 1 := by omega
      rw [hsplit, List.range'_succ, List.flatMap_cons]
      have : k + 1 * 1 = k + 1 := by omega
      rw [this]
      have hsub : items.length + 1 - (k + 1) = items.length - k := by omega
      rw [hsub]
    · have hnil : combinations k items = [] := combinations_eq_nil_iff.mpr (by omega)
      have hrange : items.length + 1 - k = 0 := by omega
      rw [hnil, hrange]
      simp

theorem nodup_powerset_flatMap {items : List α} (hnd : items.Nodup) :
    ((List.range' 1 items.length).flatMap fun k => combinations k items).Nodup := by
  rw [List.flatMap_def, List.nodup_flatten]
  constructor
  · rintro l hl
    obtain ⟨k, _, rfl⟩ := List.mem_map.mp hl
    exact nodup_combinations hnd
  · refine List.Pairwise.map _ ?_ (List.pairwise_lt_range' 1 items.length 1)
    intro a b hab
    rw [List.disjoint_left]
    intro c hca hcb
    have h1 := (mem_combinations.mp hca).2
    have h2 := (mem_combinations.mp hcb).2
    omega

/-- C3: on every non-empty transaction list, the miner with
`min_support = 0` returns every possible non-empty subset (order-preserving
sublist) of the sorted universe of distinct items exactly once — level by
level for every size from 1 to the universe size, so the loop only stops
when the level size exceeds the universe size — each paired with its true
support as computed by `calculate_support`. -/
theorem brute_force_min_support_zero_powerset (ts : List (List α)) (h : ts ≠ []) :
    ∃ l : List (List α × ℚ),
      brute_force_frequent_itemsets ts 0 = some l ∧
      (uniqueItems ts).Nodup ∧
      List.Sorted (· ≤ ·) (uniqueItems ts) ∧
      (∀ x : α, x ∈ uniqueItems ts ↔ ∃ t ∈ ts, x ∈ t) ∧
      l.map Prod.fst =
        (List.range' 1 (uniqueItems ts).length).flatMap
          (fun k => combinations k (uniqueItems ts)) ∧
      (l.map Prod.fst).Nodup ∧
      (∀ c : List α, c ∈ l.map Prod.fst ↔ c.Sublist (uniqueItems ts) ∧ c ≠ []) ∧
      (∀ p ∈ l, calculate_support ts p.1 = some p.2) := by
  have hmap : ((List.range' 1 (uniqueItems ts).length).flatMap
        fun j => (combinations j (uniqueItems ts)).map
          fun c => (c, support_spec ts c)).map Prod.fst =
      (List.range' 1 (uniqueItems ts).length).flatMap
        fun k => combinations k (uniqueItems ts) := by
    rw [List.map_flatMap]
    simp [List.map_map, Function.comp_def]
  refine ⟨(List.range' 1 (uniqueItems ts).length).flatMap
      fun j => (combinations j (uniqueItems ts)).map fun c => (c, support_spec ts c),
    ?_, nodup_uniqueItems ts, sorted_uniqueItems ts, fun x => mem_uniqueItems,
    hmap, ?_, ?_, ?_⟩
  · simp only [brute_force_frequent_itemsets]
    rw [bfLoopFuel_zero_support h (uniqueItems ts) ((uniqueItems ts).length + 1) 1
      (by omega) (by omega)]
    simp
  · rw [hmap]
    exact nodup_powerset_flatMap (nodup_uniqueItems ts)
  · intro c
    rw [hmap, List.mem_flatMap]
    constructor
    · rintro ⟨j, hj, hc⟩
      obtain ⟨hs, hlen⟩ := mem_combinations.mp hc
      refine ⟨hs, ?_⟩
      rw [List.mem_range'] at hj
      obtain ⟨i, _, rfl⟩ := hj
      rintro rfl
      simp at hlen
      omega
    · rintro ⟨hs, hne⟩
      refine ⟨c.length, ?_, mem_combinations.mpr ⟨hs, rfl⟩⟩
      rw [List.mem_range']
      have h1 : 0 < c.length := List.length_pos.mpr hne
      have h2 : c.length ≤ (uniqueItems ts).length := hs.length_le
      exact ⟨c.length - 1, by omega, by omega⟩
  · intro p hp
    obtain ⟨j, _, hp⟩ := List.mem_flatMap.mp hp
    obtain ⟨c, _, rfl⟩ := List.mem_map.mp hp
    exact calculate_support_of_ne_nil c h

/-- C3 witness: the theorem instantiated at a concrete two-item
transaction list. -/
theorem brute_force_min_support_zero_powerset_witness :
    ∃ l : List (List ℕ × ℚ),
      brute_force_frequent_itemsets [[0, 1]] 0 = some l ∧
      (uniqueItems [[0, 1]]).Nodup ∧
      List.Sorted (· ≤ ·) (uniqueItems [[(0 : ℕ), 1]]) ∧
      (∀ x : ℕ, x ∈ uniqueItems [[0, 1]] ↔ ∃ t ∈ [[0, 1]], x ∈ t) ∧
      l.map Prod.fst =
        (List.range' 1 (uniqueItems [[(0 : ℕ), 1]]).length).flatMap
          (fun k => combinations k (uniqueItems [[(0 : ℕ), 1]])) ∧
      (l.map Prod.fst).Nodup ∧
      (∀ c : List ℕ, c ∈ l.map Prod.fst ↔ c.Sublist (uniqueItems [[0, 1]]) ∧ c ≠ []) ∧
      (∀ p ∈ l, calculate_support [[0, 1]] p.1 = some p.2) :=
  brute_force_min_support_zero_powerset [[0, 1]] (by decide)

/-! ### Rule generator -/

theorem mem_consequentOf {itemset a : List α} {x : α} :
    x ∈ consequentOf itemset a ↔ x ∈ itemset ∧ x ∉ a := by
  simp [consequentOf]

theorem mem_antecedentsOf_sublist {itemset a : List α}
    (h : a ∈ antecedentsOf itemset) : a.Sublist itemset := by
  obtain ⟨i, _, hai⟩ := List.mem_flatMap.mp h
  exact (mem_combinations.mp hai).1

theorem processAntecedents_eq {ts : List (List α)} (mc : ℚ) (itemset : List α)
    (isup : ℚ) (h : ts ≠ []) :
    ∀ ants : List (List α), (∀ a ∈ ants, supportCount ts a ≠ 0) →
      processAntecedents ts mc itemset isup ants =
        some (ants.filterMap fun a =>
          if mc ≤ isup / support_spec ts a then
            some (a, consequentOf itemset a, isup / support_spec ts a, isup)
          else none) := by
  intro ants
  induction ants with
  | nil => intro _; rfl
  | cons a rest ih =>
    intro hz
    have hsa : support_spec ts a ≠ 0 := by
      have hc : supportCount ts a ≠ 0 := hz a (List.mem_cons_self a rest)
      have hl : ts.length ≠ 0 := fun h0 => h (List.length_eq_zero.mp h0)
      exact div_ne_zero (Nat.cast_ne_zero.mpr hc) (Nat.cast_ne_zero.mpr hl)
    simp only [processAntecedents, calculate_support_of_ne_nil a h]
    rw [if_neg hsa, ih fun b hb => hz b (List.mem_cons_of_mem a hb)]
    rw [List.filterMap_cons]
    by_cases hmc : mc ≤ isup / support_spec ts a <;> simp [hmc]

/-- C2 (amended): on every non-empty transaction list, and provided every
candidate antecedent of every listed itemset has non-zero support,
`generate_association_rules` behaves exactly as the spec words it: records
with itemset size > 1, antecedents as the `i`-combinations of the itemset
for `i` from 1 to size − 1, consequent = itemset minus antecedent,
antecedent support recomputed by a full scan, confidence the quotient of
the supports, and a rule emitted exactly when `confidence ≥ min_confidence`
(without the proviso the division raises instead, see the counterexample). -/
theorem generate_rules_refines_spec (fis : List (List α × ℚ)) (ts : List (List α))
    (mc : ℚ) (h : ts ≠ [])
    (hz : ∀ p ∈ fis, ∀ a ∈ antecedentsOf p.1, supportCount ts a ≠ 0) :
    generate_association_rules fis ts mc = some (generate_rules_spec fis ts mc) := by
  induction fis with
  | nil => rfl
  | cons p rest ih =>
    obtain ⟨itemset, isup⟩ := p
    simp only [generate_association_rules, rulesForItemset]
    by_cases hlen : 1 < itemset.length
    · rw [if_pos hlen,
        processAntecedents_eq mc itemset isup h (antecedentsOf itemset)
          (hz (itemset, isup) (List.mem_cons_self _ _)),
        ih fun q hq => hz q (List.mem_cons_of_mem _ hq)]
      dsimp only
      simp [generate_rules_spec, List.flatMap_cons, hlen]
    · rw [if_neg hlen, ih fun q hq => hz q (List.mem_cons_of_mem _ hq)]
      simp [generate_rules_spec, List.flatMap_cons, hlen]

theorem mem_of_processAntecedents {ts : List (List α)} {mc : ℚ} {itemset : List α}
    {isup : ℚ} :
    ∀ {ants : List (List α)} {rs},
      processAntecedents ts mc itemset isup ants = some rs →
      ∀ r ∈ rs, r.1 ∈ ants ∧ r.2.1 = consequentOf itemset r.1 ∧ r.2.2.2 = isup := by
  intro ants
  induction ants with
  | nil =>
    intro rs h r hr
    simp only [processAntecedents] at h
    obtain rfl := Option.some_injective _ h
    simp at hr
  | cons a rest ih =>
    intro rs h r hr
    simp only [processAntecedents] at h
    rcases hcs : calculate_support ts a with _ | s
    · rw [hcs] at h; simp at h
    · rw [hcs] at h
      dsimp only at h
      by_cases hs0 : s = 0
      · rw [if_pos hs0] at h; simp at h
      · rw [if_neg hs0] at h
        rcases hrec : processAntecedents ts mc itemset isup rest with _ | rs'
        · rw [hrec] at h; simp at h
        · rw [hrec] at h
          dsimp only at h
          obtain rfl := Option.some_injective _ h
          by_cases hmc : mc ≤ isup / s
          · rw [if_pos hmc] at hr
            rcases List.mem_cons.mp hr with rfl | hr'
            · exact ⟨List.mem_cons_self _ _, rfl, rfl⟩
            · obtain ⟨h1, h2, h3⟩ := ih hrec r hr'
              exact ⟨List.mem_cons_of_mem _ h1, h2, h3⟩
          · rw [if_neg hmc] at hr
            obtain ⟨h1, h2, h3⟩ := ih hrec r hr
            exact ⟨List.mem_cons_of_mem _ h1, h2, h3⟩

theorem mem_of_rulesForItemset {ts : List (List α)} {mc : ℚ} {itemset : List α}
    {isup : ℚ} {rs} (h : rulesForItemset ts mc itemset isup = some rs) :
    ∀ r ∈ rs, r.1 ∈ antecedentsOf itemset ∧ r.2.1 = consequentOf itemset r.1 ∧
      r.2.2.2 = isup := by
  rw [rulesForItemset] at h
  by_cases hlen : 1 < itemset.length
  · rw [if_pos hlen] at h
    exact mem_of_processAntecedents h
  · rw [if_neg hlen] at h
    obtain rfl := Option.some_injective _ h
    intro r hr
    simp at hr

theorem mem_of_generate_rules {fis : List (List α × ℚ)} {ts : List (List α)}
    {mc : ℚ} :
    ∀ {rules}, generate_association_rules fis ts mc = some rules →
      ∀ r ∈ rules, ∃ p ∈ fis, r.1 ∈ antecedentsOf p.1 ∧
        r.2.1 = consequentOf p.1 r.1 ∧ r.2.2.2 = p.2 := by
  induction fis with
  | nil =>
    intro rules h r hr
    simp only [generate_association_rules] at h
    obtain rfl := Option.some_injective _ h
    simp at hr
  | cons p rest ih =>
    intro rules h r hr
    obtain ⟨itemset, isup⟩ := p
    simp only [generate_association_rules] at h
    rcases h1 : rulesForItemset ts mc itemset isup with _ | rs
    · rw [h1] at h; simp at h
    · rw [h1] at h
      dsimp only at h
      rcases h2 : generate_association_rules rest ts mc with _ | more
      · rw [h2] at h; simp at h
      · rw [h2] at h
        dsimp only at h
        obtain rfl := Option.some_injective _ h
        rcases List.mem_append.mp hr with hr1 | hr2
        · obtain ⟨ha, hc, hs⟩ := mem_of_rulesForItemset h1 r hr1
          exact ⟨(itemset, isup), List.mem_cons_self _ _, ha, hc, hs⟩
        · obtain ⟨q, hq, hrest⟩ := ih h2 r hr2
          exact ⟨q, List.mem_cons_of_mem _ hq, hrest⟩

/-- C4: every rule a `generate_association_rules` run returns has disjoint
antecedent and consequent, their union is (as a set of items) exactly the
itemset of an originating frequent itemset record, and the rule's support
field is that record's support value. -/
theorem rules_disjoint_union_support (fis : List (List α × ℚ)) (ts : List (List α))
    (mc : ℚ) (rules : List (List α × List α × ℚ × ℚ))
    (h : generate_association_rules fis ts mc = some rules)
    (r : List α × List α × ℚ × ℚ) (hr : r ∈ rules) :
    (∀ x ∈ r.1, x ∉ r.2.1) ∧
      ∃ p ∈ fis, (∀ x, (x ∈ r.1 ∨ x ∈ r.2.1) ↔ x ∈ p.1) ∧ r.2.2.2 = p.2 := by
  obtain ⟨p, hp, ha, hc, hs⟩ := mem_of_generate_rules h r hr
  refine ⟨?_, p, hp, ?_, hs⟩
  · intro x hx
    rw [hc, mem_consequentOf]
    rintro ⟨_, hxa⟩
    exact hxa hx
  · intro x
    constructor
    · rintro (hx | hx)
      · exact (mem_antecedentsOf_sublist ha).subset hx
      · rw [hc] at hx
        exact (mem_consequentOf.mp hx).1
    · intro hx
      by_cases hxa : x ∈ r.1
      · exact Or.inl hxa
      · exact Or.inr (hc ▸ mem_consequentOf.mpr ⟨hx, hxa⟩)

/-! ### Concrete evaluations

Batteries marks the rational-arithmetic primitives `@[irreducible]`, which
blocks kernel evaluation; re-marking them semireducible locally lets
`decide` compute the functions on concrete inputs. -/

section ConcreteEval

attribute [local semireducible] Rat.mul Rat.inv Rat.add Rat.sub

/-- C2 counterexample: the claim's description fails as a universal
statement.  With transactions `[[0]]` and the single record `([0, 1], 0)`
(non-empty transaction list), the claim demands that the rule
`[0] → [1]` (confidence `0/1 = 0 ≥ 0`) be emitted; instead the whole call
raises (`none`), because the candidate antecedent `[1]` has support `0` and
the confidence division raises `ZeroDivisionError`. -/
theorem generate_rules_cex :
    generate_association_rules [([0, 1], (0 : ℚ))] [[(0 : ℕ)]] 0 = none := by decide

/-- C2 witness: the amended theorem instantiated at a concrete record list,
transaction list and threshold. -/
theorem generate_rules_refines_spec_witness :
    generate_association_rules [([0, 1], (1 : ℚ))] [[(0 : ℕ), 1]] 0 =
      some (generate_rules_spec [([0, 1], (1 : ℚ))] [[(0 : ℕ), 1]] 0) :=
  generate_rules_refines_spec [([0, 1], (1 : ℚ))] [[(0 : ℕ), 1]] 0
    (by decide) (by decide)

/-- C4 witness: the theorem instantiated at a concrete run whose first rule
is `[0] → [1]` with confidence 1 and support 1. -/
theorem rules_disjoint_union_support_witness :
    (∀ x ∈ [(0 : ℕ)], x ∉ [1]) ∧
      ∃ p ∈ [([0, 1], (1 : ℚ))],
        (∀ x : ℕ, (x ∈ [(0 : ℕ)] ∨ x ∈ [1]) ↔ x ∈ p.1) ∧ (1 : ℚ) = p.2 :=
  rules_disjoint_union_support [([0, 1], (1 : ℚ))] [[(0 : ℕ), 1]] 0
    [([0], [1], 1, 1), ([1], [0], 1, 1)] (by decide) ([0], [1], 1, 1) (by decide)

/-- C7: the code does NOT guard against a zero antecedent support — the
claim (and §7 of the spec, which mandates skipping such a rule) is the
intent, and the code is in error.  The failing input is even reachable from
the program's own pipeline: mining `[[0, 1], [2]]` at `min_support = 0`
yields a record `([0, 2], 0)` among others, and rule generation over that
output raises `ZeroDivisionError` (modelled `none`) at the zero-support
antecedent `[0, 2]` of `[0, 1, 2]` instead of skipping the rule. -/
theorem generate_rules_zero_antecedent_raises :
    ∃ F : List (List ℕ × ℚ),
      brute_force_frequent_itemsets [[0, 1], [2]] (0 : ℚ) = some F ∧
      ([0, 2], (0 : ℚ)) ∈ F ∧
      generate_association_rules F [[(0 : ℕ), 1], [2]] 0 = none := by
  refine ⟨[([0], 1/2), ([1], 1/2), ([2], 1/2), ([0, 1], 1/2), ([0, 2], 0),
    ([1, 2], 0), ([0, 1, 2], 0)], by decide, by decide, by decide⟩

set_option maxRecDepth 8000 in
/-- C9: the §8 example scenario, items tokenised beer ↦ 0, bread ↦ 1,
diaper ↦ 2, eggs ↦ 3, milk ↦ 4 (see `exampleTransactions`): at
`min_support = 0.6` the miner's output contains bread, milk and diaper with
support 0.8 and \x7bbread,milk\x7d, \x7bbread,diaper\x7d, \x7bmilk,diaper\x7d
with support 0.6, contains no itemset of size 3 — the size-3 level has no
survivors, which is what stops the loop — and rule generation on that
output yields bread → milk with confidence 0.75, emitted at
`min_confidence = 0.7` and absent at `min_confidence = 0.8`. -/
theorem example_scenario_eval :
    ∃ F : List (List ℕ × ℚ),
      brute_force_frequent_itemsets exampleTransactions (3/5 : ℚ) = some F ∧
      ([1], (4/5 : ℚ)) ∈ F ∧ ([4], (4/5 : ℚ)) ∈ F ∧ ([2], (4/5 : ℚ)) ∈ F ∧
      ([1, 4], (3/5 : ℚ)) ∈ F ∧ ([1, 2], (3/5 : ℚ)) ∈ F ∧ ([2, 4], (3/5 : ℚ)) ∈ F ∧
      (∀ p ∈ F, p.1.length ≤ 2) ∧
      levelFrequent exampleTransactions (3/5 : ℚ)
        (combinations 3 (uniqueItems exampleTransactions)) = some [] ∧
      (∃ R, generate_association_rules F exampleTransactions (7/10 : ℚ) = some R ∧
        ([1], [4], (3/4 : ℚ), (3/5 : ℚ)) ∈ R) ∧
      ∃ R2, generate_association_rules F exampleTransactions (4/5 : ℚ) = some R2 ∧
        ([1], [4], (3/4 : ℚ), (3/5 : ℚ)) ∉ R2 ∧
        ∀ r ∈ R2, ¬(r.1 = [1] ∧ r.2.1 = [4]) := by
  refine ⟨[([0], 3/5), ([1], 4/5), ([2], 4/5), ([4], 4/5), ([0, 2], 3/5),
      ([1, 2], 3/5), ([1, 4], 3/5), ([2, 4], 3/5)],
    by decide, by decide, by decide, by decide, by decide, by decide, by decide,
    by decide, by decide,
    ⟨[([0], [2], 1, 3/5), ([2], [0], 3/4, 3/5), ([1], [2], 3/4, 3/5),
      ([2], [1], 3/4, 3/5), ([1], [4], 3/4, 3/5), ([4], [1], 3/4, 3/5),
      ([2], [4], 3/4, 3/5), ([4], [2], 3/4, 3/5)], by decide, by decide⟩,
    ⟨[([0], [2], 1, 3/5)], by decide, by decide, by decide⟩⟩

end ConcreteEval

end AssocRules
